import Mathlib

/-!
Shallow embedding of the commit-graph construction engine of
`src/src/main.rs` (the `RepoRecipe` builder on top of git2).

Modelled state: the repository's object store restricted to commit
objects (an association list from object id to commit, kept in creation
order) and its local branch refs (an association list from branch name
to target object id).  Tree and blob objects are not part of the model:
the engine always writes the one fixed tree `"data.txt" -> "text"`
(`simple_tree`), which carries no graph-topology information.

Object ids in the real program are content hashes (which vary run to run
through timestamps); the model abstracts them as natural numbers handed
out by an allocator `alloc : Nat -> Nat` applied to the number of commits
created so far.  The standard instantiation `fun n => n` numbers commits
by creation order; the determinism theorem quantifies over allocators.
-/

/-- A git error surfaced by the builder.  `branchNotFound` models the
`Err` of `repo.find_branch` (used with `?` for merge parents),
`commitNotFound` models a failing `repo.find_commit` / a branch ref
without a direct target, `ioFailure` models a filesystem error such as
`remove_dir_all` on a missing directory. -/
inductive GitError where
  | branchNotFound (name : String)
  | commitNotFound (oid : Nat)
  | ioFailure
deriving DecidableEq, Repr

/-- A commit object: message and ordered list of parent object ids
(the fixed tree and signature carry no topology and are omitted). -/
structure Commit where
  message : String
  parents : List Nat
deriving DecidableEq, Repr

/-- The repository: commit objects in creation order, keyed by object
id, and the local branch refs. -/
structure RepoState where
  commits : List (Nat × Commit)
  branches : List (String × Nat)
deriving DecidableEq, Repr

/-- The state of a freshly initialized repository (`Repository::init`):
no commits, no branches. -/
def emptyRepo : RepoState := ⟨[], []⟩

/-- `repo.find_branch(name, BranchType::Local)` followed by
`branch.get().target()`: the target oid of the named local branch, or
`none` when no such branch exists.  (Branches created by this builder
always have a direct target, so the two lookups are fused.) -/
def findBranch (s : RepoState) (name : String) : Option Nat :=
  (s.branches.find? (fun pr => pr.1 == name)).map Prod.snd

/-- `repo.find_commit(oid)`: look the oid up in the object store. -/
def findCommit (s : RepoState) (oid : Nat) : Option Commit :=
  (s.commits.find? (fun pr => pr.1 == oid)).map Prod.snd

/-- `repo.branch(name, &commit, true)`: force-create or force-move the
named branch to the given target, overwriting any prior target. -/
def setBranch (s : RepoState) (name : String) (oid : Nat) : RepoState :=
  if s.branches.any (fun pr => pr.1 == name) then
    ⟨s.commits, s.branches.map (fun pr => if pr.1 == name then (name, oid) else pr)⟩
  else
    ⟨s.commits, s.branches ++ [(name, oid)]⟩

/-- The loop `for parent in merges { parent_branches.push(repo.find_branch(parent, ...)?) }`:
resolve every explicit merge-parent name to its branch target, failing
on the first name with no branch. -/
def resolveMerges (s : RepoState) : List String → Except GitError (List Nat)
  | [] => Except.ok []
  | p :: rest =>
    match findBranch s p with
    | some oid => (resolveMerges s rest).map (fun tips => oid :: tips)
    | none => Except.error (GitError.branchNotFound p)

/-- The loop `for branch in parent_branches { ... repo.find_commit(target_oid)? ... }`:
resolve every parent oid to its commit object. -/
def lookupAll (s : RepoState) : List Nat → Except GitError (List Commit)
  | [] => Except.ok []
  | oid :: rest =>
    match findCommit s oid with
    | some c => (lookupAll s rest).map (fun cs => c :: cs)
    | none => Except.error (GitError.commitNotFound oid)

/-- `RepoRecipe::commit(branch, message, merges)`, parametrized by the
oid allocator.  Steps, in source order: the implicit first parent is the
target branch's tip when that branch exists (`.map(push).ok()` — absence
is silently tolerated); each merge-parent name must resolve (`?`); every
parent oid must name a commit object; the new commit is written to the
object store; the branch is force-moved to it; its oid is returned.
The fixed-tree write (`simple_tree`) is outside the modelled state. -/
def commitOpA (alloc : Nat → Nat) (s : RepoState) (branch message : String)
    (merges : List String) : RepoState × Except GitError Nat :=
  let implicitParents := (findBranch s branch).toList
  match resolveMerges s merges with
  | Except.error e => (s, Except.error e)
  | Except.ok mergeOids =>
    let allParents := implicitParents ++ mergeOids
    match lookupAll s allParents with
    | Except.error e => (s, Except.error e)
    | Except.ok _parents =>
      let newOid := alloc s.commits.length
      let withCommit : RepoState :=
        ⟨s.commits ++ [(newOid, ⟨message, allParents⟩)], s.branches⟩
      (setBranch withCommit branch newOid, Except.ok newOid)

/-- The commit operation with the standard allocator (oids are creation
indices). -/
def commitOp (s : RepoState) (branch message : String)
    (merges : List String) : RepoState × Except GitError Nat :=
  commitOpA (fun n => n) s branch message merges

/-- One scripted commit operation `(branchName, message, mergeParents)`. -/
structure Op where
  branch : String
  message : String
  merges : List String
deriving DecidableEq, Repr

/-- Run a script in order; each `repo.commit(...)?` aborts the build on
its first error, leaving the state reached so far. -/
def runScriptA (alloc : Nat → Nat) (s : RepoState) : List Op → RepoState × Except GitError Unit
  | [] => (s, Except.ok ())
  | op :: rest =>
    match commitOpA alloc s op.branch op.message op.merges with
    | (s1, Except.ok _) => runScriptA alloc s1 rest
    | (s1, Except.error e) => (s1, Except.error e)

/-- Script execution with the standard allocator. -/
def runScript (s : RepoState) (script : List Op) : RepoState × Except GitError Unit :=
  runScriptA (fun n => n) s script

/-- `RepoRecipe::destroy`: `remove_dir_all(path)` removes the workspace
when present and fails with an io error when the directory is absent.
A workspace is `none` when absent and `some s` when holding a built
repository. -/
def destroyW : Option RepoState → Option RepoState × Except GitError Unit
  | none => (none, Except.error GitError.ioFailure)
  | some _ => (none, Except.ok ())

/-- `RepoRecipe::create`: `self.destroy().ok()` discards any destroy
error; then `create_dir_all` and `Repository::init` produce a fresh
empty repository (the destroy step always leaves the slot empty), and
the setup script runs against it.  The workspace holds whatever state
the build reached, and the build's verdict is propagated. -/
def createW (w : Option RepoState) (script : List Op) : Option RepoState × Except GitError Unit :=
  match destroyW w with
  | (_cleared, _ignoredDestroyResult) =>
    let r := runScript emptyRepo script
    (some r.1, r.2)

/-- The `long-diamond` recipe script from `main`. -/
def longDiamond : List Op :=
  [⟨"bottom", "bottom", []⟩,
   ⟨"a", "a1", ["bottom"]⟩,
   ⟨"a", "a2", []⟩,
   ⟨"a", "a3", []⟩,
   ⟨"b", "b1", ["bottom"]⟩,
   ⟨"b", "b2", []⟩,
   ⟨"b", "b3", []⟩,
   ⟨"top", "top", ["a", "b"]⟩]

/-- Repository states reachable from a fresh repository by successful
builder commits (the only way the builder mutates a repository). -/
inductive Reachable : RepoState → Prop where
  | empty : Reachable emptyRepo
  | step (s : RepoState) (b m : String) (ms : List String) (s1 : RepoState) (oid : Nat) :
      Reachable s → commitOp s b m ms = (s1, Except.ok oid) → Reachable s1

/-- In states produced with the standard allocator, the object-store
keys are exactly the creation indices `0, 1, ..., len - 1`. -/
def KeysCanonical (s : RepoState) : Prop :=
  s.commits.map Prod.fst = List.range s.commits.length

/-- Every local branch points at an oid naming an existing commit. -/
def BranchesValid (s : RepoState) : Prop :=
  ∀ pr ∈ s.branches, (findCommit s pr.2).isSome

/-- A one-commit fixture: branch `x` at the root commit `0`. -/
def repoX : RepoState := ⟨[(0, ⟨"root", []⟩)], [("x", 0)]⟩

/-- A two-commit fixture: independent root commits on `x` and `y`. -/
def repoXY : RepoState :=
  ⟨[(0, ⟨"root", []⟩), (1, ⟨"root2", []⟩)], [("x", 0), ("y", 1)]⟩

/-- Rename the parent oids of a commit object. -/
def relabelCommit (f : Nat → Nat) (c : Commit) : Commit :=
  ⟨c.message, c.parents.map f⟩

/-- Rename every oid of a repository state: object-store keys, parent
lists, and branch targets. -/
def relabelState (f : Nat → Nat) (s : RepoState) : RepoState :=
  ⟨s.commits.map (fun pr => (f pr.1, relabelCommit f pr.2)),
   s.branches.map (fun pr => (pr.1, f pr.2))⟩

/-- Rename the oid carried by a commit-not-found error. -/
def relabelErr (f : Nat → Nat) : GitError → GitError
  | GitError.branchNotFound n => GitError.branchNotFound n
  | GitError.commitNotFound o => GitError.commitNotFound (f o)
  | GitError.ioFailure => GitError.ioFailure

/-- The creation-order position of an oid in the object store. -/
def oidIndex (s : RepoState) (oid : Nat) : Nat :=
  s.commits.findIdx (fun pr => pr.1 == oid)

/-- The oid-independent structure of a repository: commits keyed by
creation index, parents and branch targets rewritten to creation
indices.  Two runs of a script are isomorphic exactly when their
structures coincide. -/
def structureOf (s : RepoState) : RepoState :=
  ⟨(s.commits.map (fun pr =>
      Commit.mk pr.2.message (pr.2.parents.map (oidIndex s)))).enum,
   s.branches.map (fun pr => (pr.1, oidIndex s pr.2))⟩

/-- All oids reachable from `oid` by following parent links, with
repetitions, cut off at the given depth. -/
def reachOids (s : RepoState) : Nat → Nat → List Nat
  | 0, _ => []
  | fuel + 1, oid =>
    oid :: (match findCommit s oid with
      | some c => (c.parents.map (reachOids s fuel)).flatten
      | none => [])

/-- The number of distinct commits reachable from the tip of the named
branch (`0` when the branch does not exist). -/
def branchReachCount (s : RepoState) (name : String) : Nat :=
  match findBranch s name with
  | some oid => ((reachOids s s.commits.length oid).dedup).length
  | none => 0

/-! ### Basic lemmas about the ref store -/

theorem setBranch_commits (s : RepoState) (n : String) (o : Nat) :
    (setBranch s n o).commits = s.commits := by
  unfold setBranch
  split <;> rfl

theorem find?_cons_true {α : Type} (p : α → Bool) (a : α) (l : List α)
    (h : p a = true) : (a :: l).find? p = some a :=
  List.find?_cons_of_pos l h

theorem find?_cons_false {α : Type} (p : α → Bool) (a : α) (l : List α)
    (h : p a = false) : (a :: l).find? p = l.find? p :=
  List.find?_cons_of_neg l (by simp [h])

theorem find?_replace_self (l : List (String × Nat)) (n : String) (o : Nat)
    (h : l.any (fun pr => pr.1 == n) = true) :
    (l.map (fun pr => if pr.1 == n then (n, o) else pr)).find? (fun pr => pr.1 == n)
      = some (n, o) := by
  induction l with
  | nil => simp at h
  | cons hd tl ih =>
    rw [List.map_cons]
    by_cases hh : (hd.1 == n) = true
    · rw [if_pos hh]
      exact find?_cons_true _ _ _ (beq_self_eq_true n)
    · have hh2 : (hd.1 == n) = false := by
        cases hb : hd.1 == n
        · rfl
        · exact absurd hb hh
      rw [if_neg hh, find?_cons_false (fun pr => pr.1 == n) hd _ hh2]
      apply ih
      simp only [List.any_cons, hh2, Bool.false_or] at h
      exact h

theorem find?_replace_ne (l : List (String × Nat)) (n n2 : String) (o : Nat)
    (hne : n2 ≠ n) :
    (l.map (fun pr => if pr.1 == n then (n, o) else pr)).find? (fun pr => pr.1 == n2)
      = l.find? (fun pr => pr.1 == n2) := by
  induction l with
  | nil => rfl
  | cons hd tl ih =>
    rw [List.map_cons]
    by_cases hh : (hd.1 == n) = true
    · have h1 : hd.1 = n := beq_iff_eq.mp hh
      have h2 : (n == n2) = false := beq_eq_false_iff_ne.mpr (Ne.symm hne)
      have h3 : (hd.1 == n2) = false := by rw [h1]; exact h2
      rw [if_pos hh, find?_cons_false (fun pr => pr.1 == n2) (n, o) _ h2,
        find?_cons_false (fun pr => pr.1 == n2) hd _ h3, ih]
    · rw [if_neg hh]
      by_cases hh2 : (hd.1 == n2) = true
      · rw [find?_cons_true (fun pr => pr.1 == n2) hd _ hh2,
          find?_cons_true (fun pr => pr.1 == n2) hd _ hh2]
      · have hh3 : (hd.1 == n2) = false := by
          cases hb : hd.1 == n2
          · rfl
          · exact absurd hb hh2
        rw [find?_cons_false (fun pr => pr.1 == n2) hd _ hh3,
          find?_cons_false (fun pr => pr.1 == n2) hd _ hh3, ih]

theorem findBranch_setBranch_self (s : RepoState) (n : String) (o : Nat) :
    findBranch (setBranch s n o) n = some o := by
  unfold setBranch findBranch
  split
  case isTrue h => rw [find?_replace_self s.branches n o h]; rfl
  case isFalse h =>
    show ((s.branches ++ [(n, o)]).find? (fun pr => pr.1 == n)).map Prod.snd = some o
    rw [List.find?_append]
    have h1 : s.branches.find? (fun pr => pr.1 == n) = none := by
      rw [List.find?_eq_none]
      intro x hx hbx
      exact h (List.any_of_mem hx hbx)
    rw [h1]
    simp [List.find?]

theorem findBranch_setBranch_ne (s : RepoState) (n n2 : String) (o : Nat)
    (hne : n2 ≠ n) : findBranch (setBranch s n o) n2 = findBranch s n2 := by
  unfold setBranch findBranch
  split
  case isTrue h => rw [find?_replace_ne s.branches n n2 o hne]
  case isFalse h =>
    show ((s.branches ++ [(n, o)]).find? (fun pr => pr.1 == n2)).map Prod.snd = _
    rw [List.find?_append]
    have h2 : [(n, o)].find? (fun pr => pr.1 == n2) = none := by
      simp [List.find?, beq_eq_false_iff_ne.mpr (Ne.symm hne)]
    rw [h2, Option.or_none]

theorem findBranch_branches_only (cs : List (Nat × Commit)) (s : RepoState) (n : String) :
    findBranch ⟨cs, s.branches⟩ n = findBranch s n := rfl

theorem findCommit_commits_only (s t : RepoState) (o : Nat)
    (h : s.commits = t.commits) : findCommit s o = findCommit t o := by
  unfold findCommit
  rw [h]

/-! ### Merge-parent and commit resolution lemmas -/

theorem resolveMerges_ok_forall₂ {s : RepoState} {ms : List String} {tips : List Nat}
    (h : resolveMerges s ms = Except.ok tips) :
    List.Forall₂ (fun p t => findBranch s p = some t) ms tips := by
  induction ms generalizing tips with
  | nil =>
    unfold resolveMerges at h
    cases h
    exact List.Forall₂.nil
  | cons p rest ih =>
    unfold resolveMerges at h
    cases hb : findBranch s p with
    | none => rw [hb] at h; cases h
    | some oid =>
      rw [hb] at h
      cases hr : resolveMerges s rest with
      | error e => rw [hr] at h; cases h
      | ok tl =>
        rw [hr] at h
        cases h
        exact List.Forall₂.cons hb (ih hr)

theorem resolveMerges_ok_of_isSome {s : RepoState} {ms : List String}
    (h : ∀ p ∈ ms, (findBranch s p).isSome) :
    ∃ tips, resolveMerges s ms = Except.ok tips := by
  induction ms with
  | nil => exact ⟨[], rfl⟩
  | cons p rest ih =>
    have hp : (findBranch s p).isSome := h p (List.mem_cons_self p rest)
    cases hb : findBranch s p with
    | none => rw [hb] at hp; cases hp
    | some oid =>
      obtain ⟨tips, htips⟩ := ih (fun q hq => h q (List.mem_cons_of_mem p hq))
      exact ⟨oid :: tips, by unfold resolveMerges; rw [hb, htips]; rfl⟩

theorem resolveMerges_err_of_missing {s : RepoState} {ms : List String} {p : String}
    (hp : p ∈ ms) (hnone : findBranch s p = none) :
    ∃ q, resolveMerges s ms = Except.error (GitError.branchNotFound q) ∧
      q ∈ ms ∧ findBranch s q = none := by
  induction ms with
  | nil => cases hp
  | cons hd tl ih =>
    cases hb : findBranch s hd with
    | none =>
      refine ⟨hd, ?_, List.mem_cons_self hd tl, hb⟩
      unfold resolveMerges
      rw [hb]
    | some oid =>
      have hptl : p ∈ tl := by
        rcases List.mem_cons.mp hp with h1 | h1
        · subst h1; rw [hb] at hnone; cases hnone
        · exact h1
      obtain ⟨q, hq, hmem, hqn⟩ := ih hptl
      refine ⟨q, ?_, List.mem_cons_of_mem hd hmem, hqn⟩
      unfold resolveMerges
      rw [hb, hq]
      rfl

theorem resolveMerges_err_shape {s : RepoState} {ms : List String} {e : GitError}
    (h : resolveMerges s ms = Except.error e) :
    ∃ q, e = GitError.branchNotFound q ∧ q ∈ ms ∧ findBranch s q = none := by
  induction ms with
  | nil => unfold resolveMerges at h; cases h
  | cons hd tl ih =>
    unfold resolveMerges at h
    cases hb : findBranch s hd with
    | none =>
      rw [hb] at h
      cases h
      exact ⟨hd, rfl, List.mem_cons_self hd tl, hb⟩
    | some oid =>
      rw [hb] at h
      cases hr : resolveMerges s tl with
      | error e2 =>
        rw [hr] at h
        cases h
        obtain ⟨q, hq, hmem, hqn⟩ := ih hr
        exact ⟨q, hq, List.mem_cons_of_mem hd hmem, hqn⟩
      | ok tips => rw [hr] at h; cases h

theorem lookupAll_ok_of_isSome {s : RepoState} {oids : List Nat}
    (h : ∀ o ∈ oids, (findCommit s o).isSome) :
    ∃ cs, lookupAll s oids = Except.ok cs := by
  induction oids with
  | nil => exact ⟨[], rfl⟩
  | cons o rest ih =>
    have ho : (findCommit s o).isSome := h o (List.mem_cons_self o rest)
    cases hc : findCommit s o with
    | none => rw [hc] at ho; cases ho
    | some c =>
      obtain ⟨cs, hcs⟩ := ih (fun q hq => h q (List.mem_cons_of_mem o hq))
      exact ⟨c :: cs, by unfold lookupAll; rw [hc, hcs]; rfl⟩

theorem lookupAll_err_shape {s : RepoState} {oids : List Nat} {e : GitError}
    (h : lookupAll s oids = Except.error e) :
    ∃ o, e = GitError.commitNotFound o ∧ o ∈ oids ∧ findCommit s o = none := by
  induction oids with
  | nil => unfold lookupAll at h; cases h
  | cons o rest ih =>
    unfold lookupAll at h
    cases hc : findCommit s o with
    | none =>
      rw [hc] at h
      cases h
      exact ⟨o, rfl, List.mem_cons_self o rest, hc⟩
    | some c =>
      rw [hc] at h
      cases hr : lookupAll s rest with
      | error e2 =>
        rw [hr] at h
        cases h
        obtain ⟨q, hq, hmem, hqn⟩ := ih hr
        exact ⟨q, hq, List.mem_cons_of_mem o hmem, hqn⟩
      | ok cs => rw [hr] at h; cases h

/-! ### Characterizing the commit operation -/

theorem commitOpA_ok_iff {alloc : Nat → Nat} {s : RepoState} {b m : String}
    {ms : List String} {s1 : RepoState} {oid : Nat} :
    commitOpA alloc s b m ms = (s1, Except.ok oid) ↔
      ∃ tips cs, resolveMerges s ms = Except.ok tips ∧
        lookupAll s ((findBranch s b).toList ++ tips) = Except.ok cs ∧
        oid = alloc s.commits.length ∧
        s1 = setBranch
          ⟨s.commits ++ [(oid, ⟨m, (findBranch s b).toList ++ tips⟩)], s.branches⟩
          b oid := by
  unfold commitOpA
  constructor
  · intro h
    cases hr : resolveMerges s ms with
    | error e => rw [hr] at h; cases h
    | ok tips =>
      rw [hr] at h
      cases hl : lookupAll s ((findBranch s b).toList ++ tips) with
      | error e => simp only [hl] at h; cases h
      | ok cs =>
        simp only [hl] at h
        obtain ⟨h1, h2⟩ := Prod.mk.injEq .. ▸ h
        injection h2 with h3
        subst h3
        exact ⟨tips, cs, rfl, hl, rfl, h1.symm⟩
  · rintro ⟨tips, cs, hr, hl, hoid, hs1⟩
    subst hoid
    subst hs1
    rw [hr]
    simp only [hl]

theorem commitOpA_err {alloc : Nat → Nat} {s : RepoState} {b m : String}
    {ms : List String} {s1 : RepoState} {e : GitError}
    (h : commitOpA alloc s b m ms = (s1, Except.error e)) :
    s1 = s ∧
      (resolveMerges s ms = Except.error e ∨
        ∃ tips, resolveMerges s ms = Except.ok tips ∧
          lookupAll s ((findBranch s b).toList ++ tips) = Except.error e) := by
  unfold commitOpA at h
  cases hr : resolveMerges s ms with
  | error e2 =>
    rw [hr] at h
    obtain ⟨h1, h2⟩ := Prod.mk.injEq .. ▸ h
    injection h2 with h3
    subst h3
    exact ⟨h1.symm, Or.inl rfl⟩
  | ok tips =>
    rw [hr] at h
    cases hl : lookupAll s ((findBranch s b).toList ++ tips) with
    | error e2 =>
      simp only [hl] at h
      obtain ⟨h1, h2⟩ := Prod.mk.injEq .. ▸ h
      injection h2 with h3
      subst h3
      exact ⟨h1.symm, Or.inr ⟨tips, rfl, hl⟩⟩
    | ok cs =>
      simp only [hl] at h
      obtain ⟨h1, h2⟩ := Prod.mk.injEq .. ▸ h
      cases h2

/-! ### Invariants of reachable repository states -/

theorem findCommit_append_fresh {s : RepoState} (hk : KeysCanonical s)
    (c : Commit) (br : List (String × Nat)) :
    findCommit ⟨s.commits ++ [(s.commits.length, c)], br⟩ s.commits.length = some c := by
  unfold findCommit
  rw [List.find?_append]
  have h1 : s.commits.find? (fun pr => pr.1 == s.commits.length) = none := by
    rw [List.find?_eq_none]
    intro x hx hbx
    have hmem : x.1 ∈ s.commits.map Prod.fst := List.mem_map_of_mem Prod.fst hx
    rw [hk] at hmem
    have hlt := List.mem_range.mp hmem
    have hx1 : x.1 = s.commits.length := beq_iff_eq.mp hbx
    omega
  rw [h1, Option.none_or,
    find?_cons_true (fun pr => pr.1 == s.commits.length) (s.commits.length, c) []
      (beq_self_eq_true s.commits.length)]
  rfl

theorem findCommit_append_old {s : RepoState} {o : Nat} {c : Commit}
    (h : findCommit s o = some c) (pr : Nat × Commit) (br : List (String × Nat)) :
    findCommit ⟨s.commits ++ [pr], br⟩ o = some c := by
  unfold findCommit at h ⊢
  rw [List.find?_append]
  cases hf : s.commits.find? (fun q => q.1 == o) with
  | none => rw [hf] at h; cases h
  | some q =>
    rw [hf] at h
    exact h

theorem findCommit_append_isSome (cs : List (Nat × Commit)) (k : Nat) (c : Commit)
    (br : List (String × Nat)) :
    (findCommit ⟨cs ++ [(k, c)], br⟩ k).isSome := by
  unfold findCommit
  rw [List.find?_append]
  cases hf : cs.find? (fun q => q.1 == k) with
  | none =>
    rw [Option.none_or,
      find?_cons_true (fun pr => pr.1 == k) (k, c) [] (beq_self_eq_true k)]
    rfl
  | some q => rfl

theorem mem_setBranch {t : RepoState} {n : String} {o : Nat} {pr : String × Nat}
    (h : pr ∈ (setBranch t n o).branches) : pr ∈ t.branches ∨ pr = (n, o) := by
  unfold setBranch at h
  split at h
  · obtain ⟨q, hq, heq⟩ := List.mem_map.mp h
    by_cases hqn : (q.1 == n) = true
    · right
      rw [if_pos hqn] at heq
      exact heq.symm
    · left
      rw [if_neg hqn] at heq
      rw [← heq]
      exact hq
  · rcases List.mem_append.mp h with h1 | h2
    · exact Or.inl h1
    · right
      cases List.mem_singleton.mp h2
      rfl

theorem findCommit_setBranch (t : RepoState) (n : String) (o k : Nat) :
    findCommit (setBranch t n o) k = findCommit t k :=
  findCommit_commits_only _ _ _ (setBranch_commits ..)

theorem keysCanonical_step {s : RepoState} {b m : String} {ms : List String}
    {s1 : RepoState} {oid : Nat} (hk : KeysCanonical s)
    (h : commitOp s b m ms = (s1, Except.ok oid)) : KeysCanonical s1 := by
  obtain ⟨tips, cs, hr, hl, hoid, hs1⟩ := commitOpA_ok_iff.mp h
  subst hs1
  unfold KeysCanonical at hk ⊢
  rw [setBranch_commits]
  show ((s.commits ++ [(oid, _)]).map Prod.fst) = _
  rw [List.map_append, hk, List.length_append]
  subst hoid
  simp [List.range_succ]

theorem branchesValid_step {s : RepoState} {b m : String} {ms : List String}
    {s1 : RepoState} {oid : Nat} (hv : BranchesValid s)
    (h : commitOp s b m ms = (s1, Except.ok oid)) : BranchesValid s1 := by
  obtain ⟨tips, cs, hr, hl, hoid, hs1⟩ := commitOpA_ok_iff.mp h
  subst hs1
  intro pr hpr
  have hcom : (setBranch
      ⟨s.commits ++ [(oid, ⟨m, (findBranch s b).toList ++ tips⟩)], s.branches⟩
      b oid).commits = s.commits ++ [(oid, ⟨m, (findBranch s b).toList ++ tips⟩)] :=
    setBranch_commits ..
  rw [show (findCommit (setBranch
      ⟨s.commits ++ [(oid, ⟨m, (findBranch s b).toList ++ tips⟩)], s.branches⟩
      b oid) pr.2) = findCommit
      ⟨s.commits ++ [(oid, ⟨m, (findBranch s b).toList ++ tips⟩)], s.branches⟩ pr.2
    from findCommit_commits_only _ _ _ (by rw [hcom])]
  rcases mem_setBranch hpr with hold | hnew
  · have hvp := hv pr hold
    cases hc : findCommit s pr.2 with
    | none => rw [hc] at hvp; cases hvp
    | some c =>
      rw [findCommit_append_old hc (oid, ⟨m, (findBranch s b).toList ++ tips⟩) s.branches]
      rfl
  · subst hnew
    exact findCommit_append_isSome s.commits oid _ s.branches

theorem reachable_keysCanonical {s : RepoState} (hs : Reachable s) : KeysCanonical s := by
  induction hs with
  | empty => rfl
  | step s b m ms s1 oid _ h ih => exact keysCanonical_step ih h

theorem reachable_branchesValid {s : RepoState} (hs : Reachable s) : BranchesValid s := by
  induction hs with
  | empty => intro pr hpr; cases hpr
  | step s b m ms s1 oid _ h ih => exact branchesValid_step ih h

theorem findCommit_isSome_of_findBranch {s : RepoState} {n : String} {o : Nat}
    (hv : BranchesValid s) (h : findBranch s n = some o) :
    (findCommit s o).isSome := by
  unfold findBranch at h
  cases hf : s.branches.find? (fun pr => pr.1 == n) with
  | none => rw [hf] at h; cases h
  | some pr =>
    rw [hf] at h
    have hpr : pr ∈ s.branches := List.mem_of_find?_eq_some hf
    have h2 : pr.2 = o := by
      injection h
    rw [← h2]
    exact hv pr hpr

/-- Each element of the right list of a `Forall₂` is related to some
element of the left list. -/
theorem forall₂_exists_left {α β : Type} {R : α → β → Prop} {l1 : List α}
    {l2 : List β} (h : List.Forall₂ R l1 l2) {y : β} (hy : y ∈ l2) :
    ∃ x, x ∈ l1 ∧ R x y := by
  induction h with
  | nil => cases hy
  | cons hrel hrest ih =>
    rcases List.mem_cons.mp hy with h3 | h3
    · subst h3
      exact ⟨_, List.mem_cons_self .., hrel⟩
    · obtain ⟨x, hx, hxy⟩ := ih h3
      exact ⟨x, List.mem_cons_of_mem _ hx, hxy⟩

/-- Each element of the left list of a `Forall₂` is related to some
element of the right list. -/
theorem forall₂_exists_right {α β : Type} {R : α → β → Prop} {l1 : List α}
    {l2 : List β} (h : List.Forall₂ R l1 l2) {x : α} (hx : x ∈ l1) :
    ∃ y, y ∈ l2 ∧ R x y := by
  induction h with
  | nil => cases hx
  | cons hrel hrest ih =>
    rcases List.mem_cons.mp hx with h3 | h3
    · subst h3
      exact ⟨_, List.mem_cons_self .., hrel⟩
    · obtain ⟨y, hy, hxy⟩ := ih h3
      exact ⟨y, List.mem_cons_of_mem _ hy, hxy⟩

/-- On a valid state, every resolved parent oid (implicit tip or merge
tip) names an existing commit. -/
theorem parentOids_valid {s : RepoState} {b : String} {ms : List String}
    {tips : List Nat} (hv : BranchesValid s)
    (htips : resolveMerges s ms = Except.ok tips) :
    ∀ o ∈ (findBranch s b).toList ++ tips, (findCommit s o).isSome := by
  intro o ho
  rcases List.mem_append.mp ho with h1 | h2
  · cases hb : findBranch s b with
    | none => rw [hb] at h1; cases h1
    | some t =>
      rw [hb] at h1
      cases List.mem_singleton.mp h1
      exact findCommit_isSome_of_findBranch hv hb
  · obtain ⟨p, hp, hpt⟩ := forall₂_exists_left (resolveMerges_ok_forall₂ htips) h2
    exact findCommit_isSome_of_findBranch hv hpt

/-- If the target branch exists and all merge-parent names exist, the
commit operation on a valid state succeeds. -/
theorem commit_ok_exists {s : RepoState} {b m : String} {ms : List String}
    (hv : BranchesValid s) (hms : ∀ p ∈ ms, (findBranch s p).isSome) :
    ∃ s1 oid, commitOp s b m ms = (s1, Except.ok oid) := by
  obtain ⟨tips, htips⟩ := resolveMerges_ok_of_isSome hms
  obtain ⟨cs, hcs⟩ := lookupAll_ok_of_isSome (parentOids_valid hv htips)
  exact ⟨_, _, commitOpA_ok_iff.mpr ⟨tips, cs, htips, hcs, rfl, rfl⟩⟩

/-- On a reachable state, a successful commit stores the new commit at
the returned oid with exactly the resolved parent list. -/
theorem commit_ok_parents {s : RepoState} {b m : String} {ms : List String}
    {s1 : RepoState} {oid : Nat} {tips : List Nat} (hs : Reachable s)
    (hr : resolveMerges s ms = Except.ok tips)
    (h : commitOp s b m ms = (s1, Except.ok oid)) :
    oid = s.commits.length ∧
      findCommit s1 oid = some ⟨m, (findBranch s b).toList ++ tips⟩ ∧
      findBranch s1 b = some oid := by
  obtain ⟨tips2, cs, hr2, hl, hoid, hs1⟩ := commitOpA_ok_iff.mp h
  have htt : tips2 = tips := by
    rw [hr] at hr2
    injection hr2 with h3
    exact h3.symm
  subst htt
  have hk := reachable_keysCanonical hs
  refine ⟨hoid, ?_, ?_⟩
  · subst hs1
    rw [findCommit_setBranch]
    subst hoid
    exact findCommit_append_fresh hk _ s.branches
  · subst hs1
    exact findBranch_setBranch_self ..

/-! ### Claim theorems -/

/-- C2: in any reachable repository state in which no branch named
`branchName` exists, `commit(branchName, message, [])` succeeds and
creates a commit with zero parents (a root commit). -/
theorem commit_root_when_branch_new (s : RepoState) (b m : String)
    (hs : Reachable s) (hb : findBranch s b = none) :
    ∃ s1 oid, commitOp s b m [] = (s1, Except.ok oid) ∧
      findCommit s1 oid = some ⟨m, []⟩ := by
  obtain ⟨s1, oid, h⟩ :=
    commit_ok_exists (reachable_branchesValid hs) (fun p hp => absurd hp (List.not_mem_nil p))
  obtain ⟨hoid, hfc, hfb⟩ :=
    commit_ok_parents hs (show resolveMerges s [] = Except.ok [] from rfl) h
  refine ⟨s1, oid, h, ?_⟩
  rw [hfc, hb]
  rfl

/-- Witness for C2: on the empty repository, committing to the brand-new
branch `a` with no merge parents yields a parentless commit. -/
theorem commit_root_when_branch_new_witness :
    ∃ s1 oid, commitOp emptyRepo "a" "m" [] = (s1, Except.ok oid) ∧
      findCommit s1 oid = some ⟨"m", []⟩ :=
  commit_root_when_branch_new emptyRepo "a" "m" Reachable.empty rfl

/-- C3: a commit operation whose merge-parent list names a branch that
does not exist fails with a branch-not-found error and leaves the
repository state — in particular the target branch — unchanged. -/
theorem commit_missing_merge_fails (s : RepoState) (b m : String) (ms : List String)
    (p : String) (hp : p ∈ ms) (hnone : findBranch s p = none) :
    (∃ q, (commitOp s b m ms).2 = Except.error (GitError.branchNotFound q) ∧
      q ∈ ms ∧ findBranch s q = none) ∧
    (commitOp s b m ms).1 = s ∧
    findBranch (commitOp s b m ms).1 b = findBranch s b := by
  obtain ⟨q, hq, hmem, hqn⟩ := resolveMerges_err_of_missing hp hnone
  have heq : commitOp s b m ms = (s, Except.error (GitError.branchNotFound q)) := by
    unfold commitOp commitOpA
    rw [hq]
  rw [heq]
  exact ⟨⟨q, rfl, hmem, hqn⟩, rfl, rfl⟩

/-- Witness for C3: the script `[commit("a","m",["ghost"])]` on a fresh
repository fails with a Graph error and does not create branch `a`. -/
theorem commit_missing_merge_fails_witness :
    (∃ q, (commitOp emptyRepo "a" "m" ["ghost"]).2
        = Except.error (GitError.branchNotFound q) ∧
      q ∈ ["ghost"] ∧ findBranch emptyRepo q = none) ∧
    (commitOp emptyRepo "a" "m" ["ghost"]).1 = emptyRepo ∧
    findBranch (commitOp emptyRepo "a" "m" ["ghost"]).1 "a" = findBranch emptyRepo "a" :=
  commit_missing_merge_fails emptyRepo "a" "m" ["ghost"] "ghost"
    (List.mem_singleton.mpr rfl) rfl

/-- C5: when a commit operation on a reachable state succeeds, the named
branch afterwards points at the returned oid — created or force-moved
regardless of its prior target — and that oid names the newly created
commit (which carries the operation's message). -/
theorem commit_updates_branch_to_new (s : RepoState) (b m : String) (ms : List String)
    (s1 : RepoState) (oid : Nat) (hs : Reachable s)
    (h : commitOp s b m ms = (s1, Except.ok oid)) :
    findBranch s1 b = some oid ∧ oid = s.commits.length ∧
      ∃ ps, findCommit s1 oid = some ⟨m, ps⟩ := by
  obtain ⟨tips, cs, hr, hl, hoid, hs1⟩ := commitOpA_ok_iff.mp h
  obtain ⟨hoid2, hfc, hfb⟩ := commit_ok_parents hs hr h
  exact ⟨hfb, hoid2, _, hfc⟩

/-- Witness for C5: the second commit to branch `a` force-moves `a` to
the new commit and returns its oid. -/
theorem commit_updates_branch_to_new_witness :
    findBranch ⟨[(0, ⟨"m1", []⟩), (1, ⟨"m2", [0]⟩)], [("a", 1)]⟩ "a" = some 1 ∧
      (1 : Nat) = (⟨[(0, ⟨"m1", []⟩)], [("a", 0)]⟩ : RepoState).commits.length ∧
      ∃ ps, findCommit ⟨[(0, ⟨"m1", []⟩), (1, ⟨"m2", [0]⟩)], [("a", 1)]⟩ 1
        = some ⟨"m2", ps⟩ :=
  commit_updates_branch_to_new ⟨[(0, ⟨"m1", []⟩)], [("a", 0)]⟩ "a" "m2" []
    ⟨[(0, ⟨"m1", []⟩), (1, ⟨"m2", [0]⟩)], [("a", 1)]⟩ 1
    (Reachable.step emptyRepo "a" "m1" [] ⟨[(0, ⟨"m1", []⟩)], [("a", 0)]⟩ 0
      Reachable.empty rfl)
    rfl

/-- C9: a successful commit operation leaves the target of every branch
other than the named one unchanged. -/
theorem commit_frames_other_branches (s : RepoState) (b m : String) (ms : List String)
    (s1 : RepoState) (oid : Nat) (h : commitOp s b m ms = (s1, Except.ok oid)) :
    ∀ n, n ≠ b → findBranch s1 n = findBranch s n := by
  obtain ⟨tips, cs, hr, hl, hoid, hs1⟩ := commitOpA_ok_iff.mp h
  subst hs1
  intro n hn
  rw [findBranch_setBranch_ne _ _ _ _ hn]
  exact findBranch_branches_only ..

/-- Witness for C9: committing to `y` does not move branch `x`. -/
theorem commit_frames_other_branches_witness :
    findBranch ⟨[(0, ⟨"root", []⟩), (1, ⟨"root2", []⟩)], [("x", 0), ("y", 1)]⟩ "x"
      = findBranch ⟨[(0, ⟨"root", []⟩)], [("x", 0)]⟩ "x" :=
  commit_frames_other_branches ⟨[(0, ⟨"root", []⟩)], [("x", 0)]⟩ "y" "root2" []
    ⟨[(0, ⟨"root", []⟩), (1, ⟨"root2", []⟩)], [("x", 0), ("y", 1)]⟩ 1 rfl
    "x" (by decide)

theorem commitOp_resolve_err {s : RepoState} {b m : String} {ms : List String}
    {e : GitError} (hq : resolveMerges s ms = Except.error e) :
    commitOp s b m ms = (s, Except.error e) := by
  unfold commitOp commitOpA
  rw [hq]

theorem reachable_repoX : Reachable repoX :=
  Reachable.step emptyRepo "x" "root" [] repoX 0 Reachable.empty rfl

theorem reachable_repoXY : Reachable repoXY :=
  Reachable.step repoX "y" "root2" [] repoXY 1 reachable_repoX rfl

/-- C4: branch lookup failure is asymmetric in `commit`.  A missing
branch in `mergeParents` always fails the whole operation with a
branch-not-found error, while a missing target branch is silently
tolerated: on success the created commit's parents are exactly the
merge tips, with no implicit contribution. -/
theorem commit_branch_lookup_asymmetry (s : RepoState) (b m : String)
    (ms : List String) (hs : Reachable s) :
    ((∃ p ∈ ms, findBranch s p = none) →
      ∃ q, (commitOp s b m ms).2 = Except.error (GitError.branchNotFound q) ∧ q ∈ ms) ∧
    (findBranch s b = none →
      ∀ s1 oid, commitOp s b m ms = (s1, Except.ok oid) →
        ∃ tips, resolveMerges s ms = Except.ok tips ∧
          List.Forall₂ (fun p t => findBranch s p = some t) ms tips ∧
          findCommit s1 oid = some ⟨m, tips⟩) := by
  constructor
  · rintro ⟨p, hp, hnone⟩
    obtain ⟨q, hq, hmem, hqn⟩ := resolveMerges_err_of_missing hp hnone
    rw [commitOp_resolve_err hq]
    exact ⟨q, rfl, hmem⟩
  · intro hb s1 oid h
    obtain ⟨tips, cs, hr, hl, hoid, hs1⟩ := commitOpA_ok_iff.mp h
    obtain ⟨hoid2, hfc, hfb⟩ := commit_ok_parents hs hr h
    rw [hb] at hfc
    exact ⟨tips, hr, resolveMerges_ok_forall₂ hr, hfc⟩

/-- Witness for C4: on fixtures, `commit("a","m",["ghost"])` fails with
branch-not-found, while `commit("z","m3",["x"])` with `z` missing
succeeds and the new commit's only parent is the tip of `x`. -/
theorem commit_branch_lookup_asymmetry_witness :
    (∃ q, (commitOp emptyRepo "a" "m" ["ghost"]).2
        = Except.error (GitError.branchNotFound q) ∧ q ∈ ["ghost"]) ∧
    (∃ tips, resolveMerges repoX ["x"] = Except.ok tips ∧
      List.Forall₂ (fun p t => findBranch repoX p = some t) ["x"] tips ∧
      findCommit ⟨[(0, ⟨"root", []⟩), (1, ⟨"m3", [0]⟩)], [("x", 0), ("z", 1)]⟩ 1
        = some ⟨"m3", tips⟩) :=
  ⟨(commit_branch_lookup_asymmetry emptyRepo "a" "m" ["ghost"] Reachable.empty).1
      ⟨"ghost", List.mem_singleton.mpr rfl, rfl⟩,
    (commit_branch_lookup_asymmetry repoX "z" "m3" ["x"] reachable_repoX).2 rfl
      ⟨[(0, ⟨"root", []⟩), (1, ⟨"m3", [0]⟩)], [("x", 0), ("z", 1)]⟩ 1 rfl⟩

/-- C6: the parent list of a successful commit is exactly the target
branch's current tip (when it exists) followed by the tips of the
named merge parents in listed order; duplicates are kept, so naming the
target branch among the merge parents puts its tip in the list twice. -/
theorem commit_parent_list_exact (s : RepoState) (b m : String) (ms : List String)
    (s1 : RepoState) (oid : Nat) (hs : Reachable s)
    (h : commitOp s b m ms = (s1, Except.ok oid)) :
    ∃ tips, resolveMerges s ms = Except.ok tips ∧
      List.Forall₂ (fun p t => findBranch s p = some t) ms tips ∧
      findCommit s1 oid = some ⟨m, (findBranch s b).toList ++ tips⟩ ∧
      ∀ t, findBranch s b = some t → b ∈ ms →
        2 ≤ ((findBranch s b).toList ++ tips).count t := by
  obtain ⟨tips, cs, hr, hl, hoid, hs1⟩ := commitOpA_ok_iff.mp h
  obtain ⟨hoid2, hfc, hfb⟩ := commit_ok_parents hs hr h
  refine ⟨tips, hr, resolveMerges_ok_forall₂ hr, hfc, ?_⟩
  intro t ht hbm
  obtain ⟨y, hy, hrel⟩ := forall₂_exists_right (resolveMerges_ok_forall₂ hr) hbm
  have hyt : y = t := by
    rw [ht] at hrel
    injection hrel with h3
    exact h3.symm
  subst hyt
  rw [ht]
  show 2 ≤ (y :: tips).count y
  rw [List.count_cons_self]
  have hpos : 0 < tips.count y := List.count_pos_iff.mpr hy
  omega

/-- Witness for C6: `commit("x","m2",["x"])` on the one-commit fixture
produces parent list `[0, 0]` — the tip of `x` twice. -/
theorem commit_parent_list_exact_witness :
    ∃ tips, resolveMerges repoX ["x"] = Except.ok tips ∧
      List.Forall₂ (fun p t => findBranch repoX p = some t) ["x"] tips ∧
      findCommit ⟨[(0, ⟨"root", []⟩), (1, ⟨"m2", [0, 0]⟩)], [("x", 1)]⟩ 1
        = some ⟨"m2", (findBranch repoX "x").toList ++ tips⟩ ∧
      ∀ t, findBranch repoX "x" = some t → "x" ∈ ["x"] →
        2 ≤ ((findBranch repoX "x").toList ++ tips).count t :=
  commit_parent_list_exact repoX "x" "m2" ["x"]
    ⟨[(0, ⟨"root", []⟩), (1, ⟨"m2", [0, 0]⟩)], [("x", 1)]⟩ 1 reachable_repoX rfl

/-- C1: on a reachable state where the target branch exists with tip `t`
and all `k` merge-parent names exist, the commit succeeds and the new
commit has exactly `k + 1` parents: `t` first, then the merge tips in
listed order.  In particular a subsequent commit to the same branch with
no merge parents has the new commit as its sole parent. -/
theorem commit_merge_arity (s : RepoState) (b m m2 : String) (ms : List String)
    (t : Nat) (hs : Reachable s) (hb : findBranch s b = some t)
    (hms : ∀ p ∈ ms, (findBranch s p).isSome) :
    ∃ s1 oid tips, commitOp s b m ms = (s1, Except.ok oid) ∧
      List.Forall₂ (fun p tp => findBranch s p = some tp) ms tips ∧
      findCommit s1 oid = some ⟨m, t :: tips⟩ ∧
      (t :: tips).length = ms.length + 1 ∧
      (∀ s2 oid2, commitOp s1 b m2 [] = (s2, Except.ok oid2) →
        findCommit s2 oid2 = some ⟨m2, [oid]⟩) := by
  obtain ⟨s1, oid, h⟩ := commit_ok_exists (reachable_branchesValid hs) hms
  obtain ⟨tips, cs, hr, hl, hoid, hs1⟩ := commitOpA_ok_iff.mp h
  obtain ⟨hoid2, hfc, hfb⟩ := commit_ok_parents hs hr h
  have hforall := resolveMerges_ok_forall₂ hr
  rw [hb] at hfc
  refine ⟨s1, oid, tips, h, hforall, hfc, ?_, ?_⟩
  · have hlen := hforall.length_eq
    simp only [List.length_cons]
    omega
  · intro s2 oid2 h2
    have hs1r : Reachable s1 := Reachable.step s b m ms s1 oid hs h
    obtain ⟨hoid3, hfc2, hfb2⟩ :=
      commit_ok_parents hs1r (show resolveMerges s1 [] = Except.ok [] from rfl) h2
    rw [hfb] at hfc2
    exact hfc2

/-- Witness for C1: on the two-root fixture, `commit("x","m",["y"])`
yields a commit with parents `[0, 1]`, and a follow-up plain commit to
`x` has that merge commit as its sole parent. -/
theorem commit_merge_arity_witness :
    ∃ s1 oid tips, commitOp repoXY "x" "m" ["y"] = (s1, Except.ok oid) ∧
      List.Forall₂ (fun p tp => findBranch repoXY p = some tp) ["y"] tips ∧
      findCommit s1 oid = some ⟨"m", 0 :: tips⟩ ∧
      (0 :: tips).length = ["y"].length + 1 ∧
      (∀ s2 oid2, commitOp s1 "x" "m4" [] = (s2, Except.ok oid2) →
        findCommit s2 oid2 = some ⟨"m4", [oid]⟩) :=
  commit_merge_arity repoXY "x" "m" "m4" ["y"] 0 reachable_repoXY rfl
    (by decide)

/-- C10: every reachable repository state keeps each local branch
pointing at an existing commit, so resolving a found branch's target to
a commit inside the commit operation never fails: the operation never
returns a commit-not-found error. -/
theorem reachable_branch_targets_exist (s : RepoState) (hs : Reachable s) :
    (∀ pr ∈ s.branches, (findCommit s pr.2).isSome) ∧
    ∀ b m ms oid, (commitOp s b m ms).2 ≠ Except.error (GitError.commitNotFound oid) := by
  have hv := reachable_branchesValid hs
  refine ⟨hv, ?_⟩
  intro b m ms oid hcon
  cases hco : commitOp s b m ms with
  | mk s1 r =>
    rw [hco] at hcon
    simp only at hcon
    subst hcon
    obtain ⟨hse, herr⟩ := commitOpA_err hco
    rcases herr with h1 | ⟨tips, hr, hl⟩
    · obtain ⟨q, hq, hmem, hqn⟩ := resolveMerges_err_shape h1
      cases hq
    · obtain ⟨o, ho, homem, hnone⟩ := lookupAll_err_shape hl
      injection ho with ho2
      have hsome := parentOids_valid hv hr o homem
      rw [hnone] at hsome
      cases hsome

/-- Witness for C10: the one-commit fixture satisfies the invariant and
its commit operation never reports a missing commit object. -/
theorem reachable_branch_targets_exist_witness :
    (∀ pr ∈ repoX.branches, (findCommit repoX pr.2).isSome) ∧
    ∀ b m ms oid,
      (commitOp repoX b m ms).2 ≠ Except.error (GitError.commitNotFound oid) :=
  reachable_branch_targets_exist repoX reachable_repoX

/-! ### Oid relabeling: two allocators build isomorphic graphs -/

theorem beq_inj (f : Nat → Nat) (hf : Function.Injective f) (a b : Nat) :
    (f a == f b) = (a == b) := by
  by_cases h : a = b
  · rw [h, beq_self_eq_true, beq_self_eq_true]
  · rw [beq_eq_false_iff_ne.mpr (fun hc => h (hf hc)), beq_eq_false_iff_ne.mpr h]

theorem findBranch_relabel (f : Nat → Nat) (s : RepoState) (n : String) :
    findBranch (relabelState f s) n = (findBranch s n).map f := by
  unfold findBranch relabelState
  rw [List.find?_map]
  show ((s.branches.find? (fun pr => pr.1 == n)).map _).map Prod.snd = _
  cases s.branches.find? (fun pr => pr.1 == n) <;> rfl

theorem findCommit_relabel (f : Nat → Nat) (hf : Function.Injective f)
    (s : RepoState) (o : Nat) :
    findCommit (relabelState f s) (f o) = (findCommit s o).map (relabelCommit f) := by
  unfold findCommit relabelState
  rw [List.find?_map]
  have hpred : ((fun pr : Nat × Commit => pr.1 == f o) ∘
      (fun pr : Nat × Commit => (f pr.1, relabelCommit f pr.2)))
      = fun pr : Nat × Commit => pr.1 == o := by
    funext pr
    show (f pr.1 == f o) = (pr.1 == o)
    exact beq_inj f hf pr.1 o
  rw [hpred]
  cases s.commits.find? (fun pr => pr.1 == o) <;> rfl

theorem setBranch_relabel (f : Nat → Nat) (s : RepoState) (n : String) (o : Nat) :
    setBranch (relabelState f s) n (f o) = relabelState f (setBranch s n o) := by
  unfold setBranch relabelState
  have hany : ((s.branches.map (fun pr => (pr.1, f pr.2))).any (fun pr => pr.1 == n))
      = s.branches.any (fun pr => pr.1 == n) := by
    rw [List.any_map]
    rfl
  rw [hany]
  by_cases hb : s.branches.any (fun pr => pr.1 == n) = true
  · rw [if_pos hb, if_pos hb]
    refine congrArg₂ RepoState.mk rfl ?_
    rw [List.map_map, List.map_map]
    apply List.map_congr_left
    intro pr hpr
    show (if pr.1 == n then (n, f o) else (pr.1, f pr.2))
        = ((fun q : String × Nat => (q.1, f q.2)) (if pr.1 == n then (n, o) else pr))
    by_cases hp : (pr.1 == n) = true
    · rw [if_pos hp, if_pos hp]
    · rw [if_neg hp, if_neg hp]
  · rw [if_neg hb, if_neg hb]
    refine congrArg₂ RepoState.mk rfl ?_
    rw [List.map_append]
    rfl

theorem resolveMerges_relabel (f : Nat → Nat) (s : RepoState) (ms : List String) :
    resolveMerges (relabelState f s) ms
      = (resolveMerges s ms).map (fun tips => tips.map f) := by
  induction ms with
  | nil => rfl
  | cons p rest ih =>
    unfold resolveMerges
    rw [findBranch_relabel]
    cases hb : findBranch s p with
    | none => rfl
    | some oid =>
      rw [ih]
      cases hr : resolveMerges s rest <;> rfl

theorem lookupAll_relabel (f : Nat → Nat) (hf : Function.Injective f)
    (s : RepoState) (oids : List Nat) :
    lookupAll (relabelState f s) (oids.map f)
      = Except.mapError (relabelErr f)
          ((lookupAll s oids).map (fun cs => cs.map (relabelCommit f))) := by
  induction oids with
  | nil => rfl
  | cons o rest ih =>
    show lookupAll (relabelState f s) (f o :: rest.map f) = _
    unfold lookupAll
    rw [findCommit_relabel f hf]
    cases hc : findCommit s o with
    | none => rfl
    | some c =>
      rw [ih]
      cases hl : lookupAll s rest <;> rfl

theorem commitOpA_resolve_err {alloc : Nat → Nat} {s : RepoState} {b m : String}
    {ms : List String} {e : GitError}
    (hq : resolveMerges s ms = Except.error e) :
    commitOpA alloc s b m ms = (s, Except.error e) := by
  unfold commitOpA
  rw [hq]

theorem commitOpA_lookup_err {alloc : Nat → Nat} {s : RepoState} {b m : String}
    {ms : List String} {tips : List Nat} {e : GitError}
    (hr : resolveMerges s ms = Except.ok tips)
    (hl : lookupAll s ((findBranch s b).toList ++ tips) = Except.error e) :
    commitOpA alloc s b m ms = (s, Except.error e) := by
  cases hco : commitOpA alloc s b m ms with
  | mk s1 r =>
    cases r with
    | ok oid =>
      obtain ⟨tips2, cs, hr2, hl2, _, _⟩ := commitOpA_ok_iff.mp hco
      rw [hr] at hr2
      injection hr2 with h3
      subst h3
      rw [hl] at hl2
      cases hl2
    | error e2 =>
      obtain ⟨hse, herr⟩ := commitOpA_err hco
      subst hse
      rcases herr with h1 | ⟨tips3, hr3, hl3⟩
      · rw [hr] at h1
        cases h1
      · rw [hr] at hr3
        injection hr3 with h3
        subst h3
        rw [hl] at hl3
        injection hl3 with h4
        subst h4
        rfl

theorem commitOpA_relabel (f al : Nat → Nat) (hf : Function.Injective f)
    (s : RepoState) (b m : String) (ms : List String) :
    commitOpA (fun n => f (al n)) (relabelState f s) b m ms
      = (relabelState f (commitOpA al s b m ms).1,
         Except.mapError (relabelErr f) ((commitOpA al s b m ms).2.map f)) := by
  have htl : ∀ tips : List Nat,
      (findBranch (relabelState f s) b).toList ++ tips.map f
        = ((findBranch s b).toList ++ tips).map f := by
    intro tips
    rw [findBranch_relabel, List.map_append]
    refine congrArg₂ List.append ?_ rfl
    cases findBranch s b <;> rfl
  cases hco : commitOpA al s b m ms with
  | mk s1 r =>
    cases r with
    | ok oid =>
      obtain ⟨tips, cs, hr, hl, hoid, hs1⟩ := commitOpA_ok_iff.mp hco
      have h1 : resolveMerges (relabelState f s) ms = Except.ok (tips.map f) := by
        rw [resolveMerges_relabel, hr]
        rfl
      have h2 : lookupAll (relabelState f s)
          ((findBranch (relabelState f s) b).toList ++ tips.map f)
          = Except.ok (cs.map (relabelCommit f)) := by
        rw [htl tips, lookupAll_relabel f hf, hl]
        rfl
      have hlen : (relabelState f s).commits.length = s.commits.length :=
        List.length_map ..
      have hoid2 : f oid = (fun n => f (al n)) ((relabelState f s).commits.length) := by
        rw [hlen, hoid]
      have hs2 : relabelState f s1
          = setBranch
              ⟨(relabelState f s).commits ++
                [(f oid, ⟨m, (findBranch (relabelState f s) b).toList ++ tips.map f⟩)],
               (relabelState f s).branches⟩
              b (f oid) := by
        subst hs1
        rw [← setBranch_relabel f _ b oid]
        refine congrArg (fun t => setBranch t b (f oid)) ?_
        show relabelState f
            ⟨s.commits ++ [(oid, ⟨m, (findBranch s b).toList ++ tips⟩)], s.branches⟩ = _
        unfold relabelState
        refine congrArg₂ RepoState.mk ?_ rfl
        rw [List.map_append]
        refine congrArg₂ List.append rfl ?_
        show [(f oid, relabelCommit f ⟨m, (findBranch s b).toList ++ tips⟩)] = _
        rw [show relabelCommit f ⟨m, (findBranch s b).toList ++ tips⟩
            = ⟨m, ((findBranch s b).toList ++ tips).map f⟩ from rfl]
        rw [← htl tips]
        rfl
      have hfinal := (@commitOpA_ok_iff (fun n => f (al n)) (relabelState f s) b m ms
        (relabelState f s1) (f oid)).mpr
        ⟨tips.map f, cs.map (relabelCommit f), h1, h2, hoid2, hs2⟩
      rw [hfinal]
      rfl
    | error e =>
      obtain ⟨hse, herr⟩ := commitOpA_err hco
      subst hse
      rcases herr with h1 | ⟨tips, hr, hl⟩
      · obtain ⟨q, hq, _, _⟩ := resolveMerges_err_shape h1
        subst hq
        have h2 : resolveMerges (relabelState f s1) ms
            = Except.error (GitError.branchNotFound q) := by
          rw [resolveMerges_relabel, h1]
          rfl
        rw [commitOpA_resolve_err h2]
        rfl
      · have h2 : lookupAll (relabelState f s1)
            ((findBranch (relabelState f s1) b).toList ++ tips.map f)
            = Except.error (relabelErr f e) := by
          rw [htl tips, lookupAll_relabel f hf, hl]
          rfl
        have h1 : resolveMerges (relabelState f s1) ms = Except.ok (tips.map f) := by
          rw [resolveMerges_relabel, hr]
          rfl
        rw [commitOpA_lookup_err h1 h2]
        rfl

theorem runScriptA_cons (alloc : Nat → Nat) (s : RepoState) (op : Op)
    (rest : List Op) :
    runScriptA alloc s (op :: rest)
      = (match commitOpA alloc s op.branch op.message op.merges with
        | (s1, Except.ok _) => runScriptA alloc s1 rest
        | (s1, Except.error e) => (s1, Except.error e)) := rfl

theorem runScriptA_relabel (f al : Nat → Nat) (hf : Function.Injective f)
    (script : List Op) (s : RepoState) :
    runScriptA (fun n => f (al n)) (relabelState f s) script
      = (relabelState f (runScriptA al s script).1,
         Except.mapError (relabelErr f) (runScriptA al s script).2) := by
  induction script generalizing s with
  | nil => rfl
  | cons op rest ih =>
    rw [runScriptA_cons (fun n => f (al n)), runScriptA_cons al,
      commitOpA_relabel f al hf]
    cases hco : commitOpA al s op.branch op.message op.merges with
    | mk s1 r =>
      cases r with
      | ok oid => exact ih s1
      | error e => rfl

/-! ### Structural view of a commit graph -/

theorem findIdx_map {α β : Type} (g : α → β) (l : List α) (p : β → Bool) :
    (l.map g).findIdx p = l.findIdx (fun a => p (g a)) := by
  induction l with
  | nil => rfl
  | cons hd tl ih =>
    rw [List.map_cons, List.findIdx_cons, List.findIdx_cons, ih]

theorem oidIndex_relabel (f : Nat → Nat) (hf : Function.Injective f)
    (s : RepoState) (o : Nat) :
    oidIndex (relabelState f s) (f o) = oidIndex s o := by
  unfold oidIndex relabelState
  rw [findIdx_map]
  refine congrArg (fun p => List.findIdx p s.commits) ?_
  funext pr
  show (f pr.1 == f o) = (pr.1 == o)
  exact beq_inj f hf pr.1 o

theorem structureOf_relabel (f : Nat → Nat) (hf : Function.Injective f)
    (s : RepoState) : structureOf (relabelState f s) = structureOf s := by
  unfold structureOf
  refine congrArg₂ RepoState.mk ?_ ?_
  · refine congrArg List.enum ?_
    show (s.commits.map _).map _ = _
    rw [List.map_map]
    apply List.map_congr_left
    intro pr hpr
    show Commit.mk pr.2.message ((pr.2.parents.map f).map (oidIndex (relabelState f s)))
      = Commit.mk pr.2.message (pr.2.parents.map (oidIndex s))
    refine congrArg (Commit.mk pr.2.message) ?_
    rw [List.map_map]
    apply List.map_congr_left
    intro o ho
    exact oidIndex_relabel f hf s o
  · show ((s.branches.map (fun pr => (pr.1, f pr.2))).map
        (fun pr => (pr.1, oidIndex (relabelState f s) pr.2)))
      = s.branches.map (fun pr => (pr.1, oidIndex s pr.2))
    rw [List.map_map]
    apply List.map_congr_left
    intro pr hpr
    show (pr.1, oidIndex (relabelState f s) (f pr.2)) = (pr.1, oidIndex s pr.2)
    rw [oidIndex_relabel f hf]

/-- Running a script with any injective allocator is the canonical
(creation-index) run with every oid renamed. -/
theorem runScriptA_alloc_relabel (f : Nat → Nat) (hf : Function.Injective f)
    (script : List Op) :
    runScriptA f emptyRepo script
      = (relabelState f (runScript emptyRepo script).1,
         Except.mapError (relabelErr f) (runScript emptyRepo script).2) :=
  runScriptA_relabel f (fun n => n) hf script emptyRepo

/-- C7: running a script from the empty repository under two (injective)
oid assignments yields structurally isomorphic commit graphs: identical
oid-independent structures, the same branch names, the same number of
commits, and the same number of reachable commits per branch. -/
theorem script_determinism (script : List Op) (f g : Nat → Nat)
    (hf : Function.Injective f) (hg : Function.Injective g) :
    structureOf (runScriptA f emptyRepo script).1
        = structureOf (runScriptA g emptyRepo script).1 ∧
      (runScriptA f emptyRepo script).1.branches.map Prod.fst
        = (runScriptA g emptyRepo script).1.branches.map Prod.fst ∧
      (runScriptA f emptyRepo script).1.commits.length
        = (runScriptA g emptyRepo script).1.commits.length ∧
      ∀ name, branchReachCount (structureOf (runScriptA f emptyRepo script).1) name
        = branchReachCount (structureOf (runScriptA g emptyRepo script).1) name := by
  rw [runScriptA_alloc_relabel f hf script, runScriptA_alloc_relabel g hg script]
  refine ⟨?_, ?_, ?_, ?_⟩
  · show structureOf (relabelState f (runScript emptyRepo script).1)
      = structureOf (relabelState g (runScript emptyRepo script).1)
    rw [structureOf_relabel f hf, structureOf_relabel g hg]
  · show (relabelState f (runScript emptyRepo script).1).branches.map Prod.fst
      = (relabelState g (runScript emptyRepo script).1).branches.map Prod.fst
    unfold relabelState
    rw [List.map_map, List.map_map]
    rfl
  · show (relabelState f (runScript emptyRepo script).1).commits.length
      = (relabelState g (runScript emptyRepo script).1).commits.length
    unfold relabelState
    rw [List.length_map, List.length_map]
  · intro name
    show branchReachCount (structureOf (relabelState f (runScript emptyRepo script).1)) name
      = branchReachCount (structureOf (relabelState g (runScript emptyRepo script).1)) name
    rw [structureOf_relabel f hf, structureOf_relabel g hg]

/-- Witness for C7: the bundled `long-diamond` script built under two
different oid assignments has identical structure. -/
theorem script_determinism_witness :
    Function.Injective (fun n : Nat => n + 7) ∧
    Function.Injective (fun n : Nat => 3 * n) ∧
    (structureOf (runScriptA (fun n : Nat => n + 7) emptyRepo longDiamond).1
        = structureOf (runScriptA (fun n : Nat => 3 * n) emptyRepo longDiamond).1 ∧
      (runScriptA (fun n : Nat => n + 7) emptyRepo longDiamond).1.branches.map Prod.fst
        = (runScriptA (fun n : Nat => 3 * n) emptyRepo longDiamond).1.branches.map Prod.fst ∧
      (runScriptA (fun n : Nat => n + 7) emptyRepo longDiamond).1.commits.length
        = (runScriptA (fun n : Nat => 3 * n) emptyRepo longDiamond).1.commits.length ∧
      ∀ name,
        branchReachCount
          (structureOf (runScriptA (fun n : Nat => n + 7) emptyRepo longDiamond).1) name
        = branchReachCount
          (structureOf (runScriptA (fun n : Nat => 3 * n) emptyRepo longDiamond).1) name) :=
  ⟨fun a b h => by dsimp only at h; omega,
   fun a b h => by dsimp only at h; omega,
   script_determinism longDiamond (fun n => n + 7) (fun n => 3 * n)
     (fun a b h => by dsimp only at h; omega)
     (fun a b h => by dsimp only at h; omega)⟩

/-- C8: `create()` first destroys any prior workspace — a destroy
failure (the directory being absent) never failing the create — then
initializes a fresh empty repository and runs the build script against
it, so its outcome is independent of the prior workspace contents. -/
theorem create_resets_then_builds (w : Option RepoState) (script : List Op) :
    createW w script = createW none script ∧
    (destroyW none).2 = Except.error GitError.ioFailure ∧
    createW w script
      = (some (runScript emptyRepo script).1, (runScript emptyRepo script).2) := by
  cases w <;> exact ⟨rfl, rfl, rfl⟩
